import Mathlib

/-!
# Verification of `simple-astar` (src/src/lib.rs)

A shallow embedding of the grid A* routine from `src/src/lib.rs` and proofs
about it.  Machine integers (`u32`, `usize`) are modelled as `Nat`; every
subtraction in the source is guarded so that it never underflows on the
inputs the theorems quantify over (this is itself proved, see the
out-of-bounds theorem).  The two `FxHashMap`s are modelled as association
lists where insertion conses a fresh entry in front and lookup returns the
most recent entry; `BinaryHeap` (a max-heap under the reversed ordering of
`FrontierItem::cmp`) is modelled as a plain list together with a function
popping the greatest element under the same ordering.  The unbounded `while`
loops of the source are modelled with an explicit fuel parameter; the
termination theorem shows that some fuel always suffices, and the
reconstruction loop is run with fuel that provably suffices on every state
the search loop can produce.
-/

set_option maxHeartbeats 1000000
set_option maxRecDepth 100000

/-- `FrontierItem` from the source: a frontier entry holding a cell index
(`position`) and a priority (`cost`). -/
structure FrontierItem where
  position : Nat
  cost : Nat
deriving DecidableEq, Repr

/-- `FrontierItem::cmp` from the source:
`other.cost.cmp(&self.cost).then_with(|| self.position.cmp(&other.position))`.
The cost comparison is reversed (so the max-heap pops minimum cost) while the
position comparison is in natural order. -/
def FrontierItem.cmp (a b : FrontierItem) : Ordering :=
  (compare b.cost a.cost).then (compare a.position b.position)

/-- Remove the first occurrence of an item from a list (the removal performed
by `BinaryHeap::pop` once the greatest element has been identified). -/
def eraseItem : List FrontierItem → FrontierItem → List FrontierItem
  | [], _ => []
  | h :: t, m => if h = m then t else h :: eraseItem t m

/-- The greatest element of a nonempty list under `FrontierItem.cmp`,
computed by a left fold. -/
def maxItem (h : FrontierItem) (t : List FrontierItem) : FrontierItem :=
  t.foldl (fun acc x => if FrontierItem.cmp x acc = Ordering.gt then x else acc) h

/-- `BinaryHeap::pop`: remove and return the greatest element under
`FrontierItem.cmp` (that is, the entry of minimum priority, ties going to
the larger cell index), or `none` if the heap is empty. -/
def heapPop (l : List FrontierItem) : Option (FrontierItem × List FrontierItem) :=
  match l with
  | [] => none
  | h :: t =>
    let m := maxItem h t
    some (m, eraseItem (h :: t) m)

/-- Lookup in an association list modelling `FxHashMap<u32, u32>`: the first
(most recently inserted) entry for the key wins. -/
def alookup (m : List (Nat × Nat)) (k : Nat) : Option Nat :=
  match m with
  | [] => none
  | (k2, v) :: rest => if k = k2 then some v else alookup rest k

/-- `get_neighbor_coords` from the source.  Reads of `grid[i]` are modelled
with `List.getD i 0`; the out-of-bounds theorem shows that on the inputs the
claims quantify over, every such read index is inside the grid. -/
def get_neighbor_coords (current : Nat) (grid : List Nat) (width : Nat)
    (cardinal_directions : Bool) : List Nat :=
  let is_top := current < width
  let is_bottom := grid.length - width ≤ current
  let x := current % width
  let is_left := x = 0
  let is_right := x = width - 1
  (if ¬ is_top then
    let top_index := current - width
    (if 0 < grid.getD top_index 0 then [top_index] else []) ++
    (if ¬ cardinal_directions then
      (if ¬ is_left ∧ 0 < grid.getD (top_index - 1) 0 then [top_index - 1] else []) ++
      (if ¬ is_right ∧ 0 < grid.getD (top_index + 1) 0 then [top_index + 1] else [])
    else [])
  else []) ++
  (if ¬ is_left ∧ 0 < grid.getD (current - 1) 0 then [current - 1] else []) ++
  (if ¬ is_right ∧ 0 < grid.getD (current + 1) 0 then [current + 1] else []) ++
  (if ¬ is_bottom then
    let bottom_index := current + width
    (if 0 < grid.getD bottom_index 0 then [bottom_index] else []) ++
    (if ¬ cardinal_directions then
      (if ¬ is_left ∧ 0 < grid.getD (bottom_index - 1) 0 then [bottom_index - 1] else []) ++
      (if ¬ is_right ∧ 0 < grid.getD (bottom_index + 1) 0 then [bottom_index + 1] else [])
    else [])
  else [])

/-- `manhattan` from the source: `((x1 - x2).abs() + (y1 - y2).abs()) as u32`,
with the `i32` arithmetic modelled over `Int`. -/
def manhattan (x1 y1 x2 y2 : Nat) : Nat :=
  ((x1 : Int) - (x2 : Int)).natAbs + ((y1 : Int) - (y2 : Int)).natAbs

/-- The working state of one `astar` invocation: the frontier heap and the
two hash maps. -/
structure AState where
  frontier : List FrontierItem
  cost_so_far : List (Nat × Nat)
  came_from : List (Nat × Nat)
deriving DecidableEq, Repr

/-- The tentative cost the source computes for a neighbor:
`cost_so_far[current] + grid[neighbor] + manhattan(current, neighbor)`.
The `unwrap` on `cost_so_far.get(&current_position)` is modelled by
`Option.getD 0`; the invariant proofs show the lookup never fails on
reachable states. -/
def tentativeCost (cost_so_far : List (Nat × Nat)) (grid : List Nat)
    (width current neighbor : Nat) : Nat :=
  (alookup cost_so_far current).getD 0 + grid.getD neighbor 0 +
    manhattan (current % width) (current / width) (neighbor % width) (neighbor / width)

/-- The priority the source pushes for a neighbor:
the tentative cost plus `manhattan(end, neighbor)`. -/
def pushPriority (endP : Nat) (width neighbor cost : Nat) : Nat :=
  cost + manhattan (endP % width) (endP / width) (neighbor % width) (neighbor / width)

/-- The body of the `for idx in 0..neighbor_coords.len()` loop of the source
for a single neighbor: compute the tentative cost and, iff the neighbor is
undiscovered (`cost_so_far` lookup falls back to 0) or the tentative cost is
strictly smaller than the stored cost, update `cost_so_far` and `came_from`
and push the neighbor onto the frontier. -/
def relaxNeighbor (endP : Nat) (grid : List Nat) (width current : Nat)
    (st : AState) (neighbor : Nat) : AState :=
  let cost := tentativeCost st.cost_so_far grid width current neighbor
  let neighbor_cost_so_far := (alookup st.cost_so_far neighbor).getD 0
  if neighbor_cost_so_far = 0 ∨ cost < neighbor_cost_so_far then
    { frontier := { position := neighbor, cost := pushPriority endP width neighbor cost } :: st.frontier
      cost_so_far := (neighbor, cost) :: st.cost_so_far
      came_from := (neighbor, current) :: st.came_from }
  else st

/-- Expansion of one popped cell: relax every neighbor in the order
`get_neighbor_coords` produces them. -/
def expandNeighbors (endP : Nat) (grid : List Nat) (width : Nat)
    (cardinal_directions : Bool) (current : Nat) (st : AState) : AState :=
  (get_neighbor_coords current grid width cardinal_directions).foldl
    (relaxNeighbor endP grid width current) st

/-- The `while !frontier.is_empty()` search loop of the source, with fuel.
`none` means the fuel ran out; `some st` means the loop genuinely finished
(frontier exhausted, or the popped cell is `end`) in state `st`.  The
termination theorem shows sufficient fuel always exists. -/
def astarLoop (fuel : Nat) (endP : Nat) (grid : List Nat) (width : Nat)
    (cardinal_directions : Bool) (st : AState) : Option AState :=
  match fuel with
  | 0 => none
  | fuel + 1 =>
    match heapPop st.frontier with
    | none => some st
    | some (item, rest) =>
      if item.position = endP then some { st with frontier := rest }
      else
        astarLoop fuel endP grid width cardinal_directions
          (expandNeighbors endP grid width cardinal_directions item.position
            { st with frontier := rest })

/-- The reconstruction loop of the source
(`while came_from.contains_key(&last) { path.push(last); if last == start { break } last = came_from[last] }`),
with fuel.  `path` accumulates at the end, as `Vec::push` does. -/
def reconstruct (fuel : Nat) (came_from : List (Nat × Nat)) (start last : Nat)
    (path : List Nat) : List Nat :=
  match fuel with
  | 0 => path
  | fuel + 1 =>
    match alookup came_from last with
    | none => path
    | some prev =>
      let path2 := path ++ [last]
      if last = start then path2
      else reconstruct fuel came_from start prev path2

/-- Path reconstruction from a final search state, mirroring the tail of
`astar`: walk `came_from` back from `end`, then reverse.  The fuel
`cost_so_far[end] + 1` provably suffices on every state the search loop can
reach, because costs strictly decrease along `came_from` back-pointers. -/
def pathFromState (st : AState) (start endP : Nat) : List Nat :=
  (reconstruct ((alookup st.cost_so_far endP).getD 0 + 1) st.came_from start endP []).reverse

/-- The initial state of `astar`: `cost_so_far[start] = 1` and the frontier
holding `(priority 0, start)`. -/
def initState (start : Nat) : AState :=
  { frontier := [{ position := start, cost := 0 }]
    cost_so_far := [(start, 1)]
    came_from := [] }

/-- `astar` from the source, with explicit fuel for the search loop:
`some path` when the loop finishes within the fuel, `none` otherwise
(the Rust loop always finishes; see the termination theorem). -/
def astar (fuel start endP : Nat) (grid : List Nat) (width : Nat)
    (cardinal_directions : Bool) : Option (List Nat) :=
  (astarLoop fuel endP grid width cardinal_directions (initState start)).map
    (fun st => pathFromState st start endP)

/-! ## Basic lemmas: association lists and the frontier heap -/

theorem alookup_cons (k2 v k : Nat) (m : List (Nat × Nat)) :
    alookup ((k2, v) :: m) k = if k = k2 then some v else alookup m k := rfl

/-- Unfolding of `FrontierItem.cmp x y = Ordering.gt`: `x` beats `y` exactly
when `x` has strictly smaller priority, or equal priority and strictly
larger position. -/
theorem fcmp_gt_iff (x y : FrontierItem) :
    FrontierItem.cmp x y = Ordering.gt ↔
      x.cost < y.cost ∨ (x.cost = y.cost ∧ y.position < x.position) := by
  unfold FrontierItem.cmp
  rw [Ordering.then_eq_gt, Nat.compare_eq_gt, Nat.compare_eq_eq, Nat.compare_eq_gt]
  omega

theorem fcmp_not_gt_trans {a b c : FrontierItem}
    (hab : FrontierItem.cmp a b ≠ Ordering.gt)
    (hbc : FrontierItem.cmp b c ≠ Ordering.gt) :
    FrontierItem.cmp a c ≠ Ordering.gt := by
  rw [Ne, fcmp_gt_iff] at *
  omega

theorem maxItem_spec (t : List FrontierItem) (acc : FrontierItem) :
    (maxItem acc t = acc ∨ maxItem acc t ∈ t) ∧
      FrontierItem.cmp acc (maxItem acc t) ≠ Ordering.gt ∧
      ∀ x ∈ t, FrontierItem.cmp x (maxItem acc t) ≠ Ordering.gt := by
  induction t generalizing acc with
  | nil =>
    refine ⟨Or.inl rfl, ?_, by simp⟩
    simp only [maxItem, List.foldl_nil]
    rw [Ne, fcmp_gt_iff]
    omega
  | cons h t ih =>
    have hstep : maxItem acc (h :: t) =
        maxItem (if FrontierItem.cmp h acc = Ordering.gt then h else acc) t := rfl
    set acc2 := if FrontierItem.cmp h acc = Ordering.gt then h else acc with hacc2
    obtain ⟨hmem, hacc2le, hall⟩ := ih acc2
    have haccle : FrontierItem.cmp acc acc2 ≠ Ordering.gt := by
      by_cases hc : FrontierItem.cmp h acc = Ordering.gt
      · rw [hacc2, if_pos hc]
        rw [fcmp_gt_iff] at hc
        rw [Ne, fcmp_gt_iff]
        omega
      · rw [hacc2, if_neg hc]
        rw [Ne, fcmp_gt_iff]
        omega
    have hhle : FrontierItem.cmp h acc2 ≠ Ordering.gt := by
      by_cases hc : FrontierItem.cmp h acc = Ordering.gt
      · rw [hacc2, if_pos hc]
        rw [Ne, fcmp_gt_iff]
        omega
      · rw [hacc2, if_neg hc]
        rwa [Ne]
    refine ⟨?_, ?_, ?_⟩
    · rw [hstep]
      rcases hmem with hm | hm
      · rw [hm, hacc2]
        by_cases hc : FrontierItem.cmp h acc = Ordering.gt
        · rw [if_pos hc]; exact Or.inr (List.mem_cons_self h t)
        · rw [if_neg hc]; exact Or.inl rfl
      · exact Or.inr (List.mem_cons_of_mem h hm)
    · rw [hstep]
      exact fcmp_not_gt_trans haccle hacc2le
    · intro x hx
      rw [hstep]
      rcases List.mem_cons.mp hx with hx | hx
      · subst hx
        exact fcmp_not_gt_trans hhle hacc2le
      · exact hall x hx

theorem heapPop_none_iff (l : List FrontierItem) : heapPop l = none ↔ l = [] := by
  cases l <;> simp [heapPop]

theorem eraseItem_subset {l : List FrontierItem} {m x : FrontierItem}
    (hx : x ∈ eraseItem l m) : x ∈ l := by
  induction l with
  | nil => simp [eraseItem] at hx
  | cons h t ih =>
    simp only [eraseItem] at hx
    by_cases hc : h = m
    · rw [if_pos hc] at hx
      exact List.mem_cons_of_mem h hx
    · rw [if_neg hc] at hx
      rcases List.mem_cons.mp hx with hx | hx
      · exact hx ▸ List.mem_cons_self h t
      · exact List.mem_cons_of_mem h (ih hx)

theorem length_eraseItem_of_mem {l : List FrontierItem} {m : FrontierItem}
    (hm : m ∈ l) : (eraseItem l m).length + 1 = l.length := by
  induction l with
  | nil => cases hm
  | cons h t ih =>
    simp only [eraseItem]
    by_cases hc : h = m
    · rw [if_pos hc]; rfl
    · rw [if_neg hc]
      have hmt : m ∈ t := by
        rcases List.mem_cons.mp hm with hx | hx
        · exact absurd hx.symm hc
        · exact hx
      simp only [List.length_cons, ih hmt]

theorem heapPop_some {l : List FrontierItem} {m : FrontierItem}
    {rest : List FrontierItem} (h : heapPop l = some (m, rest)) :
    m ∈ l ∧ (∀ x ∈ l, FrontierItem.cmp x m ≠ Ordering.gt) ∧
      rest = eraseItem l m ∧ rest.length + 1 = l.length := by
  cases l with
  | nil => simp [heapPop] at h
  | cons hd t =>
    simp only [heapPop, Option.some.injEq, Prod.mk.injEq] at h
    obtain ⟨hm, hrest⟩ := h
    obtain ⟨hmem, hle, hall⟩ := maxItem_spec t hd
    subst hm
    subst hrest
    have hminl : maxItem hd t ∈ hd :: t := by
      rcases hmem with hx | hx
      · rw [hx]; exact List.mem_cons_self hd t
      · exact List.mem_cons_of_mem hd hx
    refine ⟨hminl, ?_, rfl, length_eraseItem_of_mem hminl⟩
    intro x hx
    rcases List.mem_cons.mp hx with hx | hx
    · exact hx ▸ hle
    · exact hall x hx

/-! ## Coordinate arithmetic for grid cells -/

theorem coords_of_eq {w q r n : Nat} (hw : 0 < w) (hr : r < w)
    (hn : n = w * q + r) : n % w = r ∧ n / w = q := by
  subst hn
  constructor
  · rw [Nat.mul_add_mod, Nat.mod_eq_of_lt hr]
  · rw [Nat.mul_add_div hw, Nat.div_eq_of_lt hr, Nat.add_zero]

theorem idx_lt_len {w q r h : Nat} (hr : r < w) (hq : q < h) :
    w * q + r < w * h := by
  calc w * q + r < w * q + w := by omega
    _ = w * (q + 1) := (Nat.mul_succ w q).symm
    _ ≤ w * h := Nat.mul_le_mul_left w hq

theorem mem_ite_nil {n : Nat} {c : Prop} [Decidable c] {l : List Nat}
    (h : n ∈ if c then l else []) : c ∧ n ∈ l := by
  by_cases hc : c
  · rw [if_pos hc] at h; exact ⟨hc, h⟩
  · rw [if_neg hc] at h; cases h

/-- Case analysis for `get_neighbor_coords` membership: a neighbor carries a
positive grid value and is one of the eight guarded index expressions of the
source. -/
theorem mem_gnc {current n width : Nat} {grid : List Nat} {card : Bool}
    (h : n ∈ get_neighbor_coords current grid width card) :
    0 < grid.getD n 0 ∧
    ((width ≤ current ∧ n = current - width) ∨
     (width ≤ current ∧ card = false ∧ current % width ≠ 0 ∧ n = current - width - 1) ∨
     (width ≤ current ∧ card = false ∧ current % width ≠ width - 1 ∧ n = current - width + 1) ∨
     (current % width ≠ 0 ∧ n = current - 1) ∨
     (current % width ≠ width - 1 ∧ n = current + 1) ∨
     (current < grid.length - width ∧ n = current + width) ∨
     (current < grid.length - width ∧ card = false ∧ current % width ≠ 0 ∧ n = current + width - 1) ∨
     (current < grid.length - width ∧ card = false ∧ current % width ≠ width - 1 ∧ n = current + width + 1)) := by
  simp only [get_neighbor_coords] at h
  have hbool : ∀ hc : ¬ (card = true), card = false := fun hc => by
    cases card
    · rfl
    · exact absurd rfl hc
  rcases List.mem_append.mp h with h | h
  rcases List.mem_append.mp h with h | h
  rcases List.mem_append.mp h with h | h
  · obtain ⟨htop, h⟩ := mem_ite_nil h
    rcases List.mem_append.mp h with h | h
    · obtain ⟨hg, h⟩ := mem_ite_nil h
      rw [List.mem_singleton] at h
      subst h
      exact ⟨hg, Or.inl ⟨by omega, rfl⟩⟩
    · obtain ⟨hcard, h⟩ := mem_ite_nil h
      rcases List.mem_append.mp h with h | h
      · obtain ⟨⟨hl, hg⟩, h⟩ := mem_ite_nil h
        rw [List.mem_singleton] at h
        subst h
        exact ⟨hg, Or.inr (Or.inl ⟨by omega, hbool hcard, hl, rfl⟩)⟩
      · obtain ⟨⟨hr, hg⟩, h⟩ := mem_ite_nil h
        rw [List.mem_singleton] at h
        subst h
        exact ⟨hg, Or.inr (Or.inr (Or.inl ⟨by omega, hbool hcard, hr, rfl⟩))⟩
  · obtain ⟨⟨hl, hg⟩, h⟩ := mem_ite_nil h
    rw [List.mem_singleton] at h
    subst h
    exact ⟨hg, Or.inr (Or.inr (Or.inr (Or.inl ⟨hl, rfl⟩)))⟩
  · obtain ⟨⟨hr, hg⟩, h⟩ := mem_ite_nil h
    rw [List.mem_singleton] at h
    subst h
    exact ⟨hg, Or.inr (Or.inr (Or.inr (Or.inr (Or.inl ⟨hr, rfl⟩))))⟩
  · obtain ⟨hbot, h⟩ := mem_ite_nil h
    rcases List.mem_append.mp h with h | h
    · obtain ⟨hg, h⟩ := mem_ite_nil h
      rw [List.mem_singleton] at h
      subst h
      exact ⟨hg, Or.inr (Or.inr (Or.inr (Or.inr (Or.inr (Or.inl ⟨by omega, rfl⟩)))))⟩
    · obtain ⟨hcard, h⟩ := mem_ite_nil h
      rcases List.mem_append.mp h with h | h
      · obtain ⟨⟨hl, hg⟩, h⟩ := mem_ite_nil h
        rw [List.mem_singleton] at h
        subst h
        exact ⟨hg, Or.inr (Or.inr (Or.inr (Or.inr (Or.inr (Or.inr (Or.inl
          ⟨by omega, hbool hcard, hl, rfl⟩))))))⟩
      · obtain ⟨⟨hr, hg⟩, h⟩ := mem_ite_nil h
        rw [List.mem_singleton] at h
        subst h
        exact ⟨hg, Or.inr (Or.inr (Or.inr (Or.inr (Or.inr (Or.inr (Or.inr
          ⟨by omega, hbool hcard, hr, rfl⟩))))))⟩

/-- Every neighbor produced by `get_neighbor_coords` has a positive grid
value (neighbors are only pushed when `grid[idx] > 0`). -/
theorem gnc_pos {current n width : Nat} {grid : List Nat} {card : Bool}
    (h : n ∈ get_neighbor_coords current grid width card) :
    0 < grid.getD n 0 := (mem_gnc h).1

theorem cell_decomp {w h L n q2 r2 : Nat} (hw : 0 < w) (hlen : L = w * h)
    (hn : n = w * q2 + r2) (hr2 : r2 < w) (hq2 : q2 < h) :
    n < L ∧ n % w = r2 ∧ n / w = q2 := by
  obtain ⟨hm, hd⟩ := coords_of_eq hw hr2 hn
  refine ⟨?_, hm, hd⟩
  rw [hlen, hn]
  exact idx_lt_len hr2 hq2

/-- Geometry of a generated neighbor: on a well-formed grid every neighbor is
in bounds, and the Manhattan distance between the popped cell and the
neighbor is 1 for an axis-aligned (cardinal) move and 2 for a diagonal
move. -/
theorem gnc_coords {current n width : Nat} {grid : List Nat} {card : Bool}
    (hw : 0 < width) (hmod : grid.length % width = 0) (hcur : current < grid.length)
    (hn : n ∈ get_neighbor_coords current grid width card) :
    n < grid.length ∧
      manhattan (current % width) (current / width) (n % width) (n / width) =
        (if n % width = current % width ∨ n / width = current / width then 1 else 2) := by
  obtain ⟨-, hcase⟩ := mem_gnc hn
  obtain ⟨h, hlen⟩ := Nat.dvd_of_mod_eq_zero hmod
  have hqr : width * (current / width) + current % width = current :=
    Nat.div_add_mod current width
  have hrw : current % width < width := Nat.mod_lt current hw
  have hq : current / width < h := by
    refine (Nat.div_lt_iff_lt_mul hw).mpr ?_
    have hcomm : h * width = width * h := Nat.mul_comm h width
    omega
  set q := current / width with hqdef
  set r := current % width with hrdef
  have hq1 : width ≤ current → 1 ≤ q := by
    intro hguard
    rcases Nat.eq_zero_or_pos q with h0 | h1
    · rw [h0, Nat.mul_zero] at hqr
      omega
    · exact h1
  have hqh : current < grid.length - width → q + 1 < h := by
    intro hguard
    by_contra hcon
    push_neg at hcon
    have hle := Nat.mul_le_mul_left width hcon
    have hmul : width * (q + 1) = width * q + width := Nat.mul_succ width q
    omega
  rcases hcase with ⟨htop, hne⟩ | ⟨htop, -, hl, hne⟩ | ⟨htop, -, hr1, hne⟩ |
    ⟨hl, hne⟩ | ⟨hr1, hne⟩ | ⟨hbot, hne⟩ | ⟨hbot, -, hl, hne⟩ | ⟨hbot, -, hr1, hne⟩
  · obtain ⟨q', hq'⟩ : ∃ q', q = q' + 1 := ⟨q - 1, by omega⟩
    have hmul : width * q = width * q' + width := by rw [hq']; exact Nat.mul_succ width q'
    have hnd : n = width * q' + r := by omega
    obtain ⟨hlt, hm, hd⟩ := cell_decomp hw hlen hnd hrw (by omega)
    refine ⟨hlt, ?_⟩
    rw [hm, hd, if_pos (Or.inl rfl)]
    simp only [manhattan]
    omega
  · obtain ⟨q', hq'⟩ : ∃ q', q = q' + 1 := ⟨q - 1, by omega⟩
    have hmul : width * q = width * q' + width := by rw [hq']; exact Nat.mul_succ width q'
    have hnd : n = width * q' + (r - 1) := by omega
    obtain ⟨hlt, hm, hd⟩ := cell_decomp hw hlen hnd (by omega) (by omega)
    refine ⟨hlt, ?_⟩
    rw [hm, hd, if_neg (by omega)]
    simp only [manhattan]
    omega
  · obtain ⟨q', hq'⟩ : ∃ q', q = q' + 1 := ⟨q - 1, by omega⟩
    have hmul : width * q = width * q' + width := by rw [hq']; exact Nat.mul_succ width q'
    have hnd : n = width * q' + (r + 1) := by omega
    obtain ⟨hlt, hm, hd⟩ := cell_decomp hw hlen hnd (by omega) (by omega)
    refine ⟨hlt, ?_⟩
    rw [hm, hd, if_neg (by omega)]
    simp only [manhattan]
    omega
  · have hnd : n = width * q + (r - 1) := by omega
    obtain ⟨hlt, hm, hd⟩ := cell_decomp hw hlen hnd (by omega) hq
    refine ⟨hlt, ?_⟩
    rw [hm, hd, if_pos (Or.inr rfl)]
    simp only [manhattan]
    omega
  · have hnd : n = width * q + (r + 1) := by omega
    obtain ⟨hlt, hm, hd⟩ := cell_decomp hw hlen hnd (by omega) hq
    refine ⟨hlt, ?_⟩
    rw [hm, hd, if_pos (Or.inr rfl)]
    simp only [manhattan]
    omega
  · have hmul : width * (q + 1) = width * q + width := Nat.mul_succ width q
    have hnd : n = width * (q + 1) + r := by omega
    obtain ⟨hlt, hm, hd⟩ := cell_decomp hw hlen hnd hrw (hqh hbot)
    refine ⟨hlt, ?_⟩
    rw [hm, hd, if_pos (Or.inl rfl)]
    simp only [manhattan]
    omega
  · have hmul : width * (q + 1) = width * q + width := Nat.mul_succ width q
    have hnd : n = width * (q + 1) + (r - 1) := by omega
    obtain ⟨hlt, hm, hd⟩ := cell_decomp hw hlen hnd (by omega) (hqh hbot)
    refine ⟨hlt, ?_⟩
    rw [hm, hd, if_neg (by omega)]
    simp only [manhattan]
    omega
  · have hmul : width * (q + 1) = width * q + width := Nat.mul_succ width q
    have hnd : n = width * (q + 1) + (r + 1) := by omega
    obtain ⟨hlt, hm, hd⟩ := cell_decomp hw hlen hnd (by omega) (hqh hbot)
    refine ⟨hlt, ?_⟩
    rw [hm, hd, if_neg (by omega)]
    simp only [manhattan]
    omega

/-- On a well-formed grid every generated neighbor index is strictly inside
the grid. -/
theorem gnc_lt_len {current n width : Nat} {grid : List Nat} {card : Bool}
    (hw : 0 < width) (hmod : grid.length % width = 0) (hcur : current < grid.length)
    (hn : n ∈ get_neighbor_coords current grid width card) : n < grid.length :=
  (gnc_coords hw hmod hcur hn).1

/-! ## The search-loop invariant -/

theorem alookup_cons_self (k v : Nat) (m : List (Nat × Nat)) :
    alookup ((k, v) :: m) k = some v := by
  simp [alookup]

theorem alookup_cons_ne {k k2 : Nat} (v : Nat) (m : List (Nat × Nat))
    (h : k ≠ k2) : alookup ((k2, v) :: m) k = alookup m k := by
  simp [alookup, h]

/-- The state pushed by a successful relaxation of neighbor `n` from
`current`. -/
def relaxedState (endP : Nat) (grid : List Nat) (width current : Nat)
    (st : AState) (n : Nat) : AState :=
  let cost := tentativeCost st.cost_so_far grid width current n
  { frontier := { position := n, cost := pushPriority endP width n cost } :: st.frontier
    cost_so_far := (n, cost) :: st.cost_so_far
    came_from := (n, current) :: st.came_from }

/-- `relaxNeighbor` written as a single conditional update: the three fields
are extended exactly when the neighbor is undiscovered (stored cost 0) or
the tentative cost strictly improves the stored cost. -/
theorem relax_eq (endP : Nat) (grid : List Nat) (width current : Nat)
    (st : AState) (n : Nat) :
    relaxNeighbor endP grid width current st n =
      if (alookup st.cost_so_far n).getD 0 = 0 ∨
          tentativeCost st.cost_so_far grid width current n
            < (alookup st.cost_so_far n).getD 0 then
        relaxedState endP grid width current st n
      else st := rfl

/-- The invariant maintained by every iteration of the search loop.
`grid` is the cost grid and `start` the start cell of the invocation. -/
structure SearchInv (grid : List Nat) (start : Nat) (st : AState) : Prop where
  val_pos : ∀ k v, alookup st.cost_so_far k = some v → 1 ≤ v
  start_one : alookup st.cost_so_far start = some 1
  start_no_pred : alookup st.came_from start = none
  pred_lt : ∀ k p, alookup st.came_from k = some p →
    ∃ vk vp, alookup st.cost_so_far k = some vk ∧
      alookup st.cost_so_far p = some vp ∧ vp < vk
  frontier_cost : ∀ it ∈ st.frontier, (alookup st.cost_so_far it.position).isSome
  frontier_pred : ∀ it ∈ st.frontier,
    it.position = start ∨ (alookup st.came_from it.position).isSome
  pred_closed : ∀ k p, alookup st.came_from k = some p →
    p = start ∨ (alookup st.came_from p).isSome
  frontier_grid : ∀ it ∈ st.frontier,
    it.position = start ∨ 0 < grid.getD it.position 0

theorem inv_init (grid : List Nat) (start : Nat) :
    SearchInv grid start (initState start) := by
  constructor
  · intro k v hk
    simp only [initState, alookup] at hk
    by_cases h : k = start
    · rw [if_pos h] at hk
      have := Option.some.inj hk
      omega
    · rw [if_neg h] at hk
      cases hk
  · exact alookup_cons_self start 1 []
  · rfl
  · intro k p hk
    simp [alookup] at hk
  · intro it hit
    simp only [initState, List.mem_singleton] at hit
    subst hit
    simp [initState, alookup]
  · intro it hit
    simp only [initState, List.mem_singleton] at hit
    subst hit
    exact Or.inl rfl
  · intro k p hk
    simp [alookup] at hk
  · intro it hit
    simp only [initState, List.mem_singleton] at hit
    subst hit
    exact Or.inl rfl

/-- One relaxation step preserves the search invariant; moreover the stored
cost of the popped cell is untouched and `came_from` entries are never
removed. -/
theorem relax_step (endP width : Nat) {grid : List Nat} {start current n : Nat} {st : AState}
    (hinv : SearchInv grid start st)
    (hcost : (alookup st.cost_so_far current).isSome)
    (hpred : current = start ∨ (alookup st.came_from current).isSome)
    (hgn : 0 < grid.getD n 0) :
    SearchInv grid start (relaxNeighbor endP grid width current st n) ∧
      alookup (relaxNeighbor endP grid width current st n).cost_so_far current
        = alookup st.cost_so_far current ∧
      (∀ k, (alookup st.came_from k).isSome →
        (alookup (relaxNeighbor endP grid width current st n).came_from k).isSome) := by
  rw [relax_eq]
  by_cases hC : (alookup st.cost_so_far n).getD 0 = 0 ∨
      tentativeCost st.cost_so_far grid width current n < (alookup st.cost_so_far n).getD 0
  swap
  · rw [if_neg hC]
    exact ⟨hinv, rfl, fun k hk => hk⟩
  rw [if_pos hC]
  obtain ⟨vc, hvc⟩ := Option.isSome_iff_exists.mp hcost
  have hvc1 : 1 ≤ vc := hinv.val_pos current vc hvc
  have hcexp : tentativeCost st.cost_so_far grid width current n
      = vc + grid.getD n 0 +
        manhattan (current % width) (current / width) (n % width) (n / width) := by
    rw [tentativeCost, hvc]
    rfl
  set tc := tentativeCost st.cost_so_far grid width current n with htc
  have htc1 : vc + 1 ≤ tc := by omega
  have hne_cur : n ≠ current := by
    intro he
    rw [he, hvc] at hC
    simp only [Option.getD_some] at hC
    omega
  have hne_start : n ≠ start := by
    intro he
    rw [he, hinv.start_one] at hC
    simp only [Option.getD_some] at hC
    omega
  have hcsf : (relaxedState endP grid width current st n).cost_so_far
      = (n, tc) :: st.cost_so_far := rfl
  have hcf : (relaxedState endP grid width current st n).came_from
      = (n, current) :: st.came_from := rfl
  have hfr : (relaxedState endP grid width current st n).frontier
      = { position := n, cost := pushPriority endP width n tc } :: st.frontier := rfl
  have hlc : ∀ k, alookup (relaxedState endP grid width current st n).cost_so_far k
      = if k = n then some tc else alookup st.cost_so_far k := by
    intro k
    rw [hcsf, alookup_cons]
  have hlf : ∀ k, alookup (relaxedState endP grid width current st n).came_from k
      = if k = n then some current else alookup st.came_from k := by
    intro k
    rw [hcf, alookup_cons]
  refine ⟨⟨?_, ?_, ?_, ?_, ?_, ?_, ?_, ?_⟩, ?_, ?_⟩
  · intro k v hk
    rw [hlc k] at hk
    by_cases hkn : k = n
    · rw [if_pos hkn] at hk
      have := Option.some.inj hk
      omega
    · rw [if_neg hkn] at hk
      exact hinv.val_pos k v hk
  · rw [hlc start, if_neg (fun h => hne_start h.symm)]
    exact hinv.start_one
  · rw [hlf start, if_neg (fun h => hne_start h.symm)]
    exact hinv.start_no_pred
  · intro k p hk
    rw [hlf k] at hk
    by_cases hkn : k = n
    · rw [if_pos hkn] at hk
      have hp : current = p := Option.some.inj hk
      refine ⟨tc, vc, ?_, ?_, by omega⟩
      · rw [hlc k, if_pos hkn]
      · rw [hlc p, if_neg (fun h => hne_cur (hp ▸ h.symm))]
        exact hp ▸ hvc
    · rw [if_neg hkn] at hk
      obtain ⟨vk, vp, hvk, hvp, hlt⟩ := hinv.pred_lt k p hk
      have hvk2 : alookup (relaxedState endP grid width current st n).cost_so_far k
          = some vk := by
        rw [hlc k, if_neg hkn]
        exact hvk
      by_cases hpn : p = n
      · have hvpn : alookup st.cost_so_far n = some vp := hpn ▸ hvp
        have htclt : tc < vp := by
          rcases hC with h0 | hlt2
          · rw [hvpn] at h0
            simp only [Option.getD_some] at h0
            have := hinv.val_pos n vp hvpn
            omega
          · rw [hvpn] at hlt2
            simpa using hlt2
        refine ⟨vk, tc, hvk2, ?_, by omega⟩
        rw [hlc p, if_pos hpn]
      · refine ⟨vk, vp, hvk2, ?_, hlt⟩
        rw [hlc p, if_neg hpn]
        exact hvp
  · intro it hit
    rw [hfr] at hit
    rcases List.mem_cons.mp hit with hit | hit
    · rw [hit, hlc, if_pos rfl]
      rfl
    · rw [hlc]
      by_cases hpn : it.position = n
      · rw [if_pos hpn]
        rfl
      · rw [if_neg hpn]
        exact hinv.frontier_cost it hit
  · intro it hit
    rw [hfr] at hit
    rcases List.mem_cons.mp hit with hit | hit
    · rw [hit]
      refine Or.inr ?_
      rw [hlf, if_pos rfl]
      rfl
    · rcases hinv.frontier_pred it hit with h | h
      · exact Or.inl h
      · refine Or.inr ?_
        rw [hlf]
        by_cases hpn : it.position = n
        · rw [if_pos hpn]
          rfl
        · rw [if_neg hpn]
          exact h
  · intro k p hk
    rw [hlf k] at hk
    by_cases hkn : k = n
    · rw [if_pos hkn] at hk
      have hp : current = p := Option.some.inj hk
      rcases hpred with h | h
      · exact Or.inl (hp ▸ h)
      · refine Or.inr ?_
        rw [hlf p, if_neg (fun he => hne_cur (hp ▸ he.symm))]
        exact hp ▸ h
    · rw [if_neg hkn] at hk
      rcases hinv.pred_closed k p hk with h | h
      · exact Or.inl h
      · refine Or.inr ?_
        rw [hlf p]
        by_cases hpn : p = n
        · rw [if_pos hpn]
          rfl
        · rw [if_neg hpn]
          exact h
  · intro it hit
    rw [hfr] at hit
    rcases List.mem_cons.mp hit with hit | hit
    · rw [hit]
      exact Or.inr hgn
    · exact hinv.frontier_grid it hit
  · rw [hlc current, if_neg (fun h => hne_cur h.symm)]
  · intro k hk
    rw [hlf k]
    by_cases hkn : k = n
    · rw [if_pos hkn]
      rfl
    · rw [if_neg hkn]
      exact hk

theorem fold_relax_inv {grid : List Nat} {start endP width current : Nat}
    {ns : List Nat} {st : AState}
    (hinv : SearchInv grid start st)
    (hcost : (alookup st.cost_so_far current).isSome)
    (hpred : current = start ∨ (alookup st.came_from current).isSome)
    (hns : ∀ n ∈ ns, 0 < grid.getD n 0) :
    SearchInv grid start (ns.foldl (relaxNeighbor endP grid width current) st) := by
  induction ns generalizing st with
  | nil => exact hinv
  | cons n t ih =>
    simp only [List.foldl_cons]
    obtain ⟨hinv2, hc2, hm2⟩ := relax_step endP width hinv hcost hpred
      (hns n (List.mem_cons_self n t))
    exact ih hinv2 (by rw [hc2]; exact hcost) (hpred.imp id (hm2 current))
      (fun n2 hn2 => hns n2 (List.mem_cons_of_mem n hn2))

theorem pop_state_inv {grid : List Nat} {start : Nat} {st : AState}
    (hinv : SearchInv grid start st) {rest : List FrontierItem}
    (hsub : ∀ x ∈ rest, x ∈ st.frontier) :
    SearchInv grid start { st with frontier := rest } := by
  obtain ⟨h1, h2, h3, h4, h5, h6, h7, h8⟩ := hinv
  exact ⟨h1, h2, h3, h4, fun it hit => h5 it (hsub it hit),
    fun it hit => h6 it (hsub it hit), h7, fun it hit => h8 it (hsub it hit)⟩

theorem expand_inv (endP width : Nat) (card : Bool) {grid : List Nat}
    {start : Nat} {st : AState} {item : FrontierItem} {rest : List FrontierItem}
    (hinv : SearchInv grid start st)
    (hpop : heapPop st.frontier = some (item, rest)) :
    SearchInv grid start
      (expandNeighbors endP grid width card item.position { st with frontier := rest }) := by
  obtain ⟨hmem, -, hrest, -⟩ := heapPop_some hpop
  have hsub : ∀ x ∈ rest, x ∈ st.frontier := by
    intro x hx
    rw [hrest] at hx
    exact eraseItem_subset hx
  have hinv2 := pop_state_inv hinv hsub
  exact fold_relax_inv hinv2 (hinv.frontier_cost item hmem)
    (hinv.frontier_pred item hmem) (fun n hn => gnc_pos hn)

/-- The search loop preserves the invariant: any state it completes in
satisfies `SearchInv`. -/
theorem loop_inv {grid : List Nat} {start endP width fuel : Nat} {card : Bool}
    {st stF : AState}
    (hinv : SearchInv grid start st)
    (hrun : astarLoop fuel endP grid width card st = some stF) :
    SearchInv grid start stF := by
  induction fuel generalizing st with
  | zero => simp [astarLoop] at hrun
  | succ fuel ih =>
    rw [astarLoop] at hrun
    cases hpop : heapPop st.frontier with
    | none =>
      rw [hpop] at hrun
      exact Option.some.inj hrun ▸ hinv
    | some pr =>
      obtain ⟨item, rest⟩ := pr
      rw [hpop] at hrun
      dsimp only at hrun
      by_cases hend : item.position = endP
      · rw [if_pos hend] at hrun
        obtain ⟨-, -, hrest, -⟩ := heapPop_some hpop
        have hsub : ∀ x ∈ rest, x ∈ st.frontier := by
          intro x hx
          rw [hrest] at hx
          exact eraseItem_subset hx
        exact Option.some.inj hrun ▸ pop_state_inv hinv hsub
      · rw [if_neg hend] at hrun
        exact ih (expand_inv endP width card hinv hpop) hrun

/-! ## Reconstruction-loop lemmas -/

theorem reconstruct_succ_none {came : List (Nat × Nat)} {last : Nat}
    (fuel start : Nat) (acc : List Nat) (hcl : alookup came last = none) :
    reconstruct (fuel + 1) came start last acc = acc := by
  rw [reconstruct]
  split
  · rfl
  · rename_i prev heq
    rw [hcl] at heq
    cases heq

theorem reconstruct_succ_some {came : List (Nat × Nat)} {last prev : Nat}
    (fuel start : Nat) (acc : List Nat) (hcl : alookup came last = some prev) :
    reconstruct (fuel + 1) came start last acc =
      if last = start then acc ++ [last]
      else reconstruct fuel came start prev (acc ++ [last]) := by
  rw [reconstruct]
  split
  · rename_i heq
    rw [hcl] at heq
    cases heq
  · rename_i p heq
    rw [hcl] at heq
    cases heq
    rfl

theorem reconstruct_append (fuel : Nat) (came : List (Nat × Nat)) (start : Nat) :
    ∀ last acc, reconstruct fuel came start last acc
      = acc ++ reconstruct fuel came start last [] := by
  induction fuel with
  | zero =>
    intro last acc
    simp [reconstruct]
  | succ fuel ih =>
    intro last acc
    cases hcl : alookup came last with
    | none =>
      rw [reconstruct_succ_none fuel start acc hcl,
        reconstruct_succ_none fuel start [] hcl]
      simp
    | some prev =>
      rw [reconstruct_succ_some fuel start acc hcl,
        reconstruct_succ_some fuel start [] hcl]
      by_cases hls : last = start
      · rw [if_pos hls, if_pos hls]
        simp
      · rw [if_neg hls, if_neg hls]
        rw [ih prev (acc ++ [last]), ih prev ([] ++ [last])]
        simp

theorem reconstruct_nil_iff (fuel : Nat) (came : List (Nat × Nat)) (start last : Nat) :
    reconstruct (fuel + 1) came start last [] = [] ↔ alookup came last = none := by
  cases hcl : alookup came last with
  | none => simp [reconstruct_succ_none fuel start [] hcl]
  | some prev =>
    rw [reconstruct_succ_some fuel start [] hcl]
    by_cases hls : last = start
    · rw [if_pos hls]
      simp
    · rw [if_neg hls]
      rw [reconstruct_append fuel came start prev ([] ++ [last])]
      simp

theorem reconstruct_head {came : List (Nat × Nat)} {start last prev : Nat}
    (fuel : Nat) (hcl : alookup came last = some prev) :
    (reconstruct (fuel + 1) came start last []).head? = some last := by
  rw [reconstruct_succ_some fuel start [] hcl]
  by_cases hls : last = start
  · rw [if_pos hls]
    rfl
  · rw [if_neg hls]
    rw [reconstruct_append fuel came start prev ([] ++ [last])]
    rfl

theorem reconstruct_mem_keys {came : List (Nat × Nat)} {start : Nat} :
    ∀ (fuel last : Nat), ∀ x ∈ reconstruct fuel came start last [],
      (alookup came x).isSome := by
  intro fuel
  induction fuel with
  | zero =>
    intro last x hx
    simp [reconstruct] at hx
  | succ fuel ih =>
    intro last x hx
    cases hcl : alookup came last with
    | none =>
      rw [reconstruct_succ_none fuel start [] hcl] at hx
      simp at hx
    | some prev =>
      rw [reconstruct_succ_some fuel start [] hcl] at hx
      by_cases hls : last = start
      · rw [if_pos hls] at hx
        simp only [List.nil_append, List.mem_singleton] at hx
        subst hx
        simp [hcl]
      · rw [if_neg hls] at hx
        rw [reconstruct_append fuel came start prev ([] ++ [last])] at hx
        simp only [List.nil_append, List.singleton_append, List.mem_cons] at hx
        rcases hx with hx | hx
        · subst hx
          simp [hcl]
        · exact ih prev x hx

/-- The back-pointer walk: on any state where stored costs strictly decrease
along `came_from` (the search invariant), the reconstruction loop with fuel
exceeding the stored cost of its starting cell terminates at `start`, and
the collected list is a `came_from`-chain. -/
theorem walk_spec {came cost : List (Nat × Nat)} {start : Nat}
    (hval : ∀ k v, alookup cost k = some v → 1 ≤ v)
    (hplt : ∀ k p, alookup came k = some p →
      ∃ vk vp, alookup cost k = some vk ∧ alookup cost p = some vp ∧ vp < vk)
    (hclosed : ∀ k p, alookup came k = some p → p = start ∨ (alookup came p).isSome)
    (hsnp : alookup came start = none) :
    ∀ (v last : Nat), (∀ vl, alookup cost last = some vl → vl ≤ v) →
      List.Chain' (fun a b => alookup came a = some b)
        (reconstruct (v + 1) came start last []) ∧
      (∀ y, (reconstruct (v + 1) came start last []).getLast? = some y →
        alookup came y = some start) := by
  intro v
  induction v with
  | zero =>
    intro last hb
    have hcl : alookup came last = none := by
      cases hcl : alookup came last with
      | none => rfl
      | some p =>
        obtain ⟨vk, vp, hvk, hvp, hlt⟩ := hplt last p hcl
        have h1 := hval last vk hvk
        have h2 := hb vk hvk
        omega
    rw [reconstruct_succ_none 0 start [] hcl]
    exact ⟨List.chain'_nil, fun y hy => by cases hy⟩
  | succ v ih =>
    intro last hb
    cases hcl : alookup came last with
    | none =>
      rw [reconstruct_succ_none (v + 1) start [] hcl]
      exact ⟨List.chain'_nil, fun y hy => by cases hy⟩
    | some prev =>
      obtain ⟨vk, vp, hvk, hvp, hlt⟩ := hplt last prev hcl
      have hvkv : vk ≤ v + 1 := hb vk hvk
      have hb2 : ∀ vl, alookup cost prev = some vl → vl ≤ v := by
        intro vl hvl
        rw [hvp] at hvl
        have := Option.some.inj hvl
        omega
      have hls : last ≠ start := by
        intro he
        rw [he, hsnp] at hcl
        cases hcl
      rw [reconstruct_succ_some (v + 1) start [] hcl, if_neg hls,
        reconstruct_append (v + 1) came start prev ([] ++ [last])]
      obtain ⟨ihc, ihl⟩ := ih prev hb2
      simp only [List.nil_append, List.singleton_append]
      constructor
      · rw [List.chain'_cons']
        refine ⟨?_, ihc⟩
        intro y hy
        rw [Option.mem_def] at hy
        cases hclp : alookup came prev with
        | none =>
          rw [reconstruct_succ_none v start [] hclp] at hy
          cases hy
        | some p2 =>
          rw [reconstruct_head v hclp] at hy
          have hyp : prev = y := Option.some.inj hy
          rw [← hyp]
          exact hcl
      · intro y hy
        cases hclp : alookup came prev with
        | none =>
          rw [reconstruct_succ_none v start [] hclp] at hy
          have hy2 : last = y := by
            simpa using hy
          rcases hclosed last prev hcl with h | h
          · rw [← hy2, hcl, h]
          · rw [hclp] at h
            cases h
        | some p2 =>
          have hne : reconstruct (v + 1) came start prev [] ≠ [] := by
            rw [Ne, reconstruct_nil_iff, hclp]
            simp
          cases ht : reconstruct (v + 1) came start prev [] with
          | nil => exact absurd ht hne
          | cons b l =>
            rw [ht] at hy
            rw [List.getLast?_cons_cons] at hy
            apply ihl y
            rw [ht]
            exact hy

/-- Structure of the reconstructed path on any state satisfying the search
invariant: it never contains `start`, it ends at the goal cell, its first
cell points back to `start`, and consecutive cells are linked by
`came_from`. -/
theorem pathFromState_spec {grid : List Nat} {start : Nat} (goal : Nat) {st : AState}
    (hinv : SearchInv grid start st) :
    start ∉ pathFromState st start goal ∧
      (pathFromState st start goal ≠ [] →
        (pathFromState st start goal).getLast? = some goal) ∧
      (∀ h2, (pathFromState st start goal).head? = some h2 →
        alookup st.came_from h2 = some start) ∧
      List.Chain' (fun a b => alookup st.came_from b = some a)
        (pathFromState st start goal) := by
  have hb : ∀ vl, alookup st.cost_so_far goal = some vl →
      vl ≤ (alookup st.cost_so_far goal).getD 0 := by
    intro vl hvl
    rw [hvl]
    exact le_refl vl
  obtain ⟨hchain, hlast⟩ := walk_spec hinv.val_pos hinv.pred_lt hinv.pred_closed
    hinv.start_no_pred ((alookup st.cost_so_far goal).getD 0) goal hb
  refine ⟨?_, ?_, ?_, ?_⟩
  · intro hmem
    rw [pathFromState, List.mem_reverse] at hmem
    have := reconstruct_mem_keys ((alookup st.cost_so_far goal).getD 0 + 1) goal start hmem
    rw [hinv.start_no_pred] at this
    cases this
  · intro hne
    rw [pathFromState] at hne ⊢
    rw [List.getLast?_reverse]
    cases hcl : alookup st.came_from goal with
    | none =>
      rw [reconstruct_succ_none _ start [] hcl] at hne
      simp at hne
    | some prev =>
      exact reconstruct_head _ hcl
  · intro h2 hh2
    rw [pathFromState, List.head?_reverse] at hh2
    exact hlast h2 hh2
  · rw [pathFromState, List.chain'_reverse]
    exact hchain

/-- C1: on any completed run of the search loop, a non-empty result path
excludes `start`, its last element is the goal, its first element's
back-pointer is `start`, and consecutive cells are linked by the final
`came_from` map: the path is the reversed back-pointer walk from the goal
to `start`. -/
theorem C1_path_structure {fuel start goal width : Nat} {grid : List Nat}
    {card : Bool} {stF : AState}
    (hrun : astarLoop fuel goal grid width card (initState start) = some stF)
    (hne : pathFromState stF start goal ≠ []) :
    start ∉ pathFromState stF start goal ∧
      (pathFromState stF start goal).getLast? = some goal ∧
      (∀ h2, (pathFromState stF start goal).head? = some h2 →
        alookup stF.came_from h2 = some start) ∧
      List.Chain' (fun a b => alookup stF.came_from b = some a)
        (pathFromState stF start goal) := by
  have hinv := loop_inv (inv_init grid start) hrun
  obtain ⟨h1, h2, h3, h4⟩ := pathFromState_spec goal hinv
  exact ⟨h1, h2 hne, h3, h4⟩

theorem C1_path_structure_witness :
    0 ∉ pathFromState ⟨[], [(1, 3), (0, 1)], [(1, 0)]⟩ 0 1 ∧
      (pathFromState (⟨[], [(1, 3), (0, 1)], [(1, 0)]⟩ : AState) 0 1).getLast? = some 1 ∧
      (∀ h2, (pathFromState (⟨[], [(1, 3), (0, 1)], [(1, 0)]⟩ : AState) 0 1).head?
          = some h2 →
        alookup (⟨[], [(1, 3), (0, 1)], [(1, 0)]⟩ : AState).came_from h2 = some 0) ∧
      List.Chain'
        (fun a b => alookup (⟨[], [(1, 3), (0, 1)], [(1, 0)]⟩ : AState).came_from b
          = some a)
        (pathFromState (⟨[], [(1, 3), (0, 1)], [(1, 0)]⟩ : AState) 0 1) :=
  @C1_path_structure 3 0 1 2 [1, 1] false ⟨[], [(1, 3), (0, 1)], [(1, 0)]⟩
    (by decide) (by decide)

/-- A fold of relaxations never creates a `came_from` entry for a cell that
is not among the relaxed neighbors. -/
theorem fold_relax_no_key {endP width current goal : Nat} {grid : List Nat}
    {ns : List Nat} {st : AState}
    (hg : goal ∉ ns) (hnone : alookup st.came_from goal = none) :
    alookup (ns.foldl (relaxNeighbor endP grid width current) st).came_from goal
      = none := by
  induction ns generalizing st with
  | nil => exact hnone
  | cons n t ih =>
    simp only [List.foldl_cons]
    apply ih (fun h => hg (List.mem_cons_of_mem n h))
    rw [relax_eq]
    by_cases hC : (alookup st.cost_so_far n).getD 0 = 0 ∨
        tentativeCost st.cost_so_far grid width current n < (alookup st.cost_so_far n).getD 0
    · rw [if_pos hC]
      have hne : goal ≠ n := fun he => hg (he ▸ List.mem_cons_self n t)
      show alookup ((n, current) :: st.came_from) goal = none
      rw [alookup_cons_ne _ _ hne]
      exact hnone
    · rw [if_neg hC]
      exact hnone

/-- If every cell that can generate the goal as a neighbor is itself
impassable (the goal is walled off) and the goal is not generated from
`start`, the loop never creates a `came_from` entry for the goal. -/
theorem loop_wall {fuel start goal width : Nat} {grid : List Nat} {card : Bool}
    {st stF : AState}
    (hwall : ∀ c, goal ∈ get_neighbor_coords c grid width card → grid.getD c 0 = 0)
    (hstart : goal ∉ get_neighbor_coords start grid width card)
    (hinv : SearchInv grid start st)
    (hnone : alookup st.came_from goal = none)
    (hrun : astarLoop fuel goal grid width card st = some stF) :
    alookup stF.came_from goal = none := by
  induction fuel generalizing st with
  | zero => simp [astarLoop] at hrun
  | succ fuel ih =>
    rw [astarLoop] at hrun
    cases hpop : heapPop st.frontier with
    | none =>
      rw [hpop] at hrun
      exact Option.some.inj hrun ▸ hnone
    | some pr =>
      obtain ⟨item, rest⟩ := pr
      rw [hpop] at hrun
      dsimp only at hrun
      by_cases hend : item.position = goal
      · rw [if_pos hend] at hrun
        exact Option.some.inj hrun ▸ hnone
      · rw [if_neg hend] at hrun
        obtain ⟨hmem, -, -, -⟩ := heapPop_some hpop
        have hgns : goal ∉ get_neighbor_coords item.position grid width card := by
          rcases hinv.frontier_grid item hmem with h | h
          · rw [h]
            exact hstart
          · intro hgn
            have := hwall item.position hgn
            omega
        exact ih (expand_inv goal width card hinv hpop) (fold_relax_no_key hgns hnone) hrun

/-- C2 (amended): the result is empty exactly when the final `came_from` has
no entry for the goal; in particular when `start = goal`, and when the goal
is walled off (every cell that can step into the goal is impassable)
provided the goal is not generated as a neighbor of `start` itself (the
start cell is expanded regardless of its own grid value). -/
theorem C2_empty_iff {fuel start goal width : Nat} {grid : List Nat}
    {card : Bool} {stF : AState}
    (hrun : astarLoop fuel goal grid width card (initState start) = some stF) :
    (pathFromState stF start goal = [] ↔ alookup stF.came_from goal = none) ∧
      (start = goal → pathFromState stF start goal = []) ∧
      ((∀ c, goal ∈ get_neighbor_coords c grid width card → grid.getD c 0 = 0) →
        goal ∉ get_neighbor_coords start grid width card →
        pathFromState stF start goal = []) := by
  have hinv := loop_inv (inv_init grid start) hrun
  have hiff : pathFromState stF start goal = []
      ↔ alookup stF.came_from goal = none := by
    rw [pathFromState]
    constructor
    · intro h
      rw [List.reverse_eq_nil_iff] at h
      exact (reconstruct_nil_iff _ _ _ _).mp h
    · intro h
      rw [reconstruct_succ_none _ start [] h]
      rfl
  refine ⟨hiff, ?_, ?_⟩
  · intro he
    rw [hiff, ← he]
    exact hinv.start_no_pred
  · intro hwall hstart
    rw [hiff]
    exact loop_wall hwall hstart (inv_init grid start) rfl hrun

theorem C2_empty_iff_witness :
    (pathFromState (⟨[], [(1, 3), (0, 1)], [(1, 0)]⟩ : AState) 0 1 = []
        ↔ alookup (⟨[], [(1, 3), (0, 1)], [(1, 0)]⟩ : AState).came_from 1 = none) ∧
      (0 = 1 → pathFromState (⟨[], [(1, 3), (0, 1)], [(1, 0)]⟩ : AState) 0 1 = []) ∧
      ((∀ c, 1 ∈ get_neighbor_coords c [1, 1] 2 false → List.getD [1, 1] c 0 = 0) →
        1 ∉ get_neighbor_coords 0 [1, 1] 2 false →
        pathFromState (⟨[], [(1, 3), (0, 1)], [(1, 0)]⟩ : AState) 0 1 = []) :=
  @C2_empty_iff 3 0 1 2 [1, 1] false ⟨[], [(1, 3), (0, 1)], [(1, 0)]⟩ (by decide)

/-- C2, refuting instance: on the grid `[0, 1]` of width 2 with start 0 and
goal 1, every cell that can step into the goal is impassable (the only such
cell is the start cell, of cost 0), yet the result is the non-empty path
`[1]`: the walled-off condition alone does not force an empty result,
because `start` is expanded regardless of its own grid value. -/
theorem C2_counterexample :
    (∀ c, 1 ∈ get_neighbor_coords c [0, 1] 2 false → List.getD [0, 1] c 0 = 0) ∧
      astar 10 0 1 [0, 1] 2 false = some [1] := by
  constructor
  · intro c hc
    match c with
    | 0 => rfl
    | 1 => exact absurd hc (by decide)
    | (n + 2) =>
      apply List.getD_eq_default
      simp only [List.length_cons, List.length_nil]
      omega
  · decide

/-! ## Concrete runs from the test suite -/

/-- C3: on the all-ones 5x5 grid with start 0, goal 24 and diagonal movement
enabled, `astar` returns exactly `[6, 12, 18, 24]`. -/
theorem C3_straight_line :
    astar 100 0 24
      [1, 1, 1, 1, 1, 1, 1, 1, 1, 1, 1, 1, 1, 1, 1, 1, 1, 1, 1, 1, 1, 1, 1, 1, 1]
      5 false = some [6, 12, 18, 24] := by
  decide

/-- C4: on the 4x4 grid with a wall in column 1 (except the last row), start
0, goal 15, diagonals enabled, `astar` returns `[4, 8, 13, 14, 15]`, and the
diagonal step 8 → 13 is generated even though the adjoining cardinal cell 9
is impassable. -/
theorem C4_cuts_corners :
    astar 100 0 15 [1, 0, 1, 1, 1, 0, 1, 1, 1, 0, 1, 1, 1, 1, 1, 1] 4 false
        = some [4, 8, 13, 14, 15] ∧
      13 ∈ get_neighbor_coords 8 [1, 0, 1, 1, 1, 0, 1, 1, 1, 0, 1, 1, 1, 1, 1, 1] 4 false ∧
      List.getD [1, 0, 1, 1, 1, 0, 1, 1, 1, 0, 1, 1, 1, 1, 1, 1] 9 0 = 0 := by
  refine ⟨by decide, by decide, rfl⟩

/-- C5: on the same 4x4 grid in cardinal-only mode, `astar` detours through
cell 12 and returns `[4, 8, 12, 13, 14, 15]`. -/
theorem C5_no_corner_cutting :
    astar 100 0 15 [1, 0, 1, 1, 1, 0, 1, 1, 1, 0, 1, 1, 1, 1, 1, 1] 4 true
      = some [4, 8, 12, 13, 14, 15] := by
  decide

/-- C6, refuting instance: of two frontier entries with equal priority 5 at
positions 2 and 7, the pop returns position 7, not the lower index 2: the
max-heap with the source's reversed-cost comparison breaks priority ties
towards the LARGER cell index. -/
theorem C6_counterexample :
    heapPop [{ position := 2, cost := 5 }, { position := 7, cost := 5 }]
        = some ({ position := 7, cost := 5 }, [{ position := 2, cost := 5 }]) ∧
      ({ position := 7, cost := 5 } : FrontierItem).position ≠ 2 := by
  decide

/-- C6 (amended): the popped entry always has minimal priority, and among
entries of equal minimal priority the one with the larger cell index is
popped first. -/
theorem C6_pop_min_priority {l : List FrontierItem} {m : FrontierItem}
    {rest : List FrontierItem} (h : heapPop l = some (m, rest)) :
    ∀ x ∈ l, m.cost ≤ x.cost ∧ (x.cost = m.cost → x.position ≤ m.position) := by
  obtain ⟨-, hall, -, -⟩ := heapPop_some h
  intro x hx
  have hmax := hall x hx
  rw [Ne, fcmp_gt_iff] at hmax
  omega

theorem C6_pop_min_priority_witness :
    ({ position := 7, cost := 5 } : FrontierItem).cost
        ≤ ({ position := 2, cost := 5 } : FrontierItem).cost ∧
      (({ position := 2, cost := 5 } : FrontierItem).cost
          = ({ position := 7, cost := 5 } : FrontierItem).cost →
        ({ position := 2, cost := 5 } : FrontierItem).position
          ≤ ({ position := 7, cost := 5 } : FrontierItem).position) :=
  @C6_pop_min_priority [{ position := 2, cost := 5 }, { position := 7, cost := 5 }]
    { position := 7, cost := 5 } [{ position := 2, cost := 5 }] (by decide)
    { position := 2, cost := 5 } (by decide)

theorem manhattan_comm (a b c d : Nat) : manhattan a b c d = manhattan c d a b := by
  simp only [manhattan]
  omega

/-- C7: for a neighbor `n` of `current` on a well-formed grid, the tentative
cost is `cost_so_far[current] + grid[n] + manhattan(current, n)`, the pushed
frontier priority is that tentative cost plus `manhattan(n, goal)`, and the
movement term `manhattan(current, n)` is 1 for a cardinal move (one
coordinate unchanged) and 2 for a diagonal move. -/
theorem C7_cost_and_priority {endP width current n : Nat} {grid : List Nat}
    {card : Bool} {st : AState}
    (hw : 0 < width) (hmod : grid.length % width = 0) (hcur : current < grid.length)
    (hn : n ∈ get_neighbor_coords current grid width card) :
    tentativeCost st.cost_so_far grid width current n
        = (alookup st.cost_so_far current).getD 0 + grid.getD n 0 +
          manhattan (current % width) (current / width) (n % width) (n / width) ∧
      (relaxNeighbor endP grid width current st n).frontier
        = (if (alookup st.cost_so_far n).getD 0 = 0 ∨
              tentativeCost st.cost_so_far grid width current n
                < (alookup st.cost_so_far n).getD 0 then
            [{ position := n,
               cost := tentativeCost st.cost_so_far grid width current n
                 + manhattan (n % width) (n / width) (endP % width) (endP / width) }]
          else []) ++ st.frontier ∧
      manhattan (current % width) (current / width) (n % width) (n / width)
        = (if n % width = current % width ∨ n / width = current / width then 1 else 2) := by
  refine ⟨rfl, ?_, (gnc_coords hw hmod hcur hn).2⟩
  rw [relax_eq]
  by_cases hC : (alookup st.cost_so_far n).getD 0 = 0 ∨
      tentativeCost st.cost_so_far grid width current n < (alookup st.cost_so_far n).getD 0
  · rw [if_pos hC, if_pos hC]
    have hfr : (relaxedState endP grid width current st n).frontier
        = { position := n, cost := pushPriority endP width n (tentativeCost st.cost_so_far grid width current n) } :: st.frontier := rfl
    rw [hfr, pushPriority,
      manhattan_comm (endP % width) (endP / width) (n % width) (n / width),
      List.singleton_append]
  · rw [if_neg hC, if_neg hC, List.nil_append]

theorem C7_cost_and_priority_witness :
    tentativeCost (initState 0).cost_so_far [1, 1] 2 0 1
        = (alookup (initState 0).cost_so_far 0).getD 0 + List.getD [1, 1] 1 0 +
          manhattan (0 % 2) (0 / 2) (1 % 2) (1 / 2) ∧
      (relaxNeighbor 1 [1, 1] 2 0 (initState 0) 1).frontier
        = (if (alookup (initState 0).cost_so_far 1).getD 0 = 0 ∨
              tentativeCost (initState 0).cost_so_far [1, 1] 2 0 1
                < (alookup (initState 0).cost_so_far 1).getD 0 then
            [{ position := 1,
               cost := tentativeCost (initState 0).cost_so_far [1, 1] 2 0 1
                 + manhattan (1 % 2) (1 / 2) (1 % 2) (1 / 2) }]
          else []) ++ (initState 0).frontier ∧
      manhattan (0 % 2) (0 / 2) (1 % 2) (1 / 2)
        = (if 1 % 2 = 0 % 2 ∨ 1 / 2 = 0 / 2 then 1 else 2) :=
  @C7_cost_and_priority 1 2 0 1 [1, 1] false (initState 0)
    (by decide) (by decide) (by decide) (by decide)

/-- A single relaxation never raises or removes an existing `cost_so_far`
entry (given that stored values are never the sentinel 0). -/
theorem relax_lowers (endP width current n : Nat) {grid : List Nat} {st : AState}
    (hval : ∀ k v, alookup st.cost_so_far k = some v → 1 ≤ v) :
    ∀ k v, alookup st.cost_so_far k = some v →
      ∃ v2, alookup (relaxNeighbor endP grid width current st n).cost_so_far k = some v2
        ∧ v2 ≤ v := by
  intro k v hk
  rw [relax_eq]
  by_cases hC : (alookup st.cost_so_far n).getD 0 = 0 ∨
      tentativeCost st.cost_so_far grid width current n < (alookup st.cost_so_far n).getD 0
  · rw [if_pos hC]
    have hcs : (relaxedState endP grid width current st n).cost_so_far
        = (n, tentativeCost st.cost_so_far grid width current n) :: st.cost_so_far := rfl
    by_cases hkn : k = n
    · subst hkn
      refine ⟨tentativeCost st.cost_so_far grid width current k, ?_, ?_⟩
      · rw [hcs]
        exact alookup_cons_self k _ _
      · rw [hk] at hC
        simp only [Option.getD_some] at hC
        have := hval k v hk
        omega
    · refine ⟨v, ?_, le_refl v⟩
      rw [hcs, alookup_cons_ne _ _ hkn]
      exact hk
  · rw [if_neg hC]
    exact ⟨v, hk, le_refl v⟩

theorem fold_relax_lowers {grid : List Nat} {start endP width current : Nat}
    {ns : List Nat} {st : AState}
    (hinv : SearchInv grid start st)
    (hcost : (alookup st.cost_so_far current).isSome)
    (hpred : current = start ∨ (alookup st.came_from current).isSome)
    (hns : ∀ n ∈ ns, 0 < grid.getD n 0) :
    ∀ k v, alookup st.cost_so_far k = some v →
      ∃ v2, alookup (ns.foldl (relaxNeighbor endP grid width current) st).cost_so_far k
        = some v2 ∧ v2 ≤ v := by
  induction ns generalizing st with
  | nil => exact fun k v hk => ⟨v, hk, le_refl v⟩
  | cons n t ih =>
    intro k v hk
    simp only [List.foldl_cons]
    obtain ⟨hinv2, hc2, hm2⟩ := relax_step endP width hinv hcost hpred
      (hns n (List.mem_cons_self n t))
    obtain ⟨v1, hv1, hle1⟩ := relax_lowers endP width current n hinv.val_pos k v hk
    obtain ⟨v2, hv2, hle2⟩ := ih hinv2 (by rw [hc2]; exact hcost)
      (hpred.imp id (hm2 current))
      (fun n2 hn2 => hns n2 (List.mem_cons_of_mem n hn2)) k v1 hv1
    exact ⟨v2, hv2, le_trans hle2 hle1⟩

/-- C8: the relaxation of a neighbor updates `cost_so_far`, `came_from` and
the frontier exactly when the neighbor is undiscovered (stored cost is the
sentinel 0) or the tentative cost is strictly smaller; consequently, across
one full loop iteration (pop plus expansion) every existing `cost_so_far`
entry survives with a value no larger than before, and the start entry stays
exactly 1. -/
theorem C8_relaxation_invariant {grid : List Nat} {start endP width : Nat}
    {card : Bool} {st : AState} {item : FrontierItem} {rest : List FrontierItem}
    (hinv : SearchInv grid start st)
    (hpop : heapPop st.frontier = some (item, rest)) :
    (∀ (st2 : AState) (n2 : Nat), relaxNeighbor endP grid width item.position st2 n2
        = if (alookup st2.cost_so_far n2).getD 0 = 0 ∨
            tentativeCost st2.cost_so_far grid width item.position n2
              < (alookup st2.cost_so_far n2).getD 0 then
          relaxedState endP grid width item.position st2 n2 else st2) ∧
      (∀ k v, alookup st.cost_so_far k = some v →
        ∃ v2, alookup (expandNeighbors endP grid width card item.position
            { st with frontier := rest }).cost_so_far k = some v2 ∧ v2 ≤ v) ∧
      alookup (expandNeighbors endP grid width card item.position
          { st with frontier := rest }).cost_so_far start = some 1 := by
  obtain ⟨hmem, -, hrest, -⟩ := heapPop_some hpop
  have hsub : ∀ x ∈ rest, x ∈ st.frontier := by
    intro x hx
    rw [hrest] at hx
    exact eraseItem_subset hx
  have hinv2 := pop_state_inv hinv hsub
  refine ⟨fun st2 n2 => relax_eq endP grid width item.position st2 n2, ?_, ?_⟩
  · exact fold_relax_lowers hinv2 (hinv.frontier_cost item hmem)
      (hinv.frontier_pred item hmem) (fun n hn => gnc_pos hn)
  · exact (fold_relax_inv hinv2 (hinv.frontier_cost item hmem)
      (hinv.frontier_pred item hmem) (fun n hn => gnc_pos hn)).start_one

theorem C8_relaxation_invariant_witness :
    alookup (expandNeighbors 1 [1, 1] 2 false 0
        { frontier := [], cost_so_far := [(0, 1)], came_from := [] }).cost_so_far 0
      = some 1 :=
  (@C8_relaxation_invariant [1, 1] 0 1 2 false (initState 0)
    { position := 0, cost := 0 } [] (inv_init [1, 1] 0) (by decide)).2.2

/-- The grid indices read by `get_neighbor_coords` (each read `grid[i]`
occurs under exactly these guards, whether or not the cell is then pushed). -/
def neighborReadIndices (current len width : Nat) (card : Bool) : List Nat :=
  (if width ≤ current then
    [current - width] ++
    (if card = false ∧ current % width ≠ 0 then [current - width - 1] else []) ++
    (if card = false ∧ current % width ≠ width - 1 then [current - width + 1] else [])
  else []) ++
  (if current % width ≠ 0 then [current - 1] else []) ++
  (if current % width ≠ width - 1 then [current + 1] else []) ++
  (if current < len - width then
    [current + width] ++
    (if card = false ∧ current % width ≠ 0 then [current + width - 1] else []) ++
    (if card = false ∧ current % width ≠ width - 1 then [current + width + 1] else [])
  else [])

theorem right_idx_lt {current width L : Nat} (hw : 0 < width) (hmod : L % width = 0)
    (hcur : current < L) (hr : current % width ≠ width - 1) : current + 1 < L := by
  obtain ⟨h, hlen⟩ := Nat.dvd_of_mod_eq_zero hmod
  have hqr : width * (current / width) + current % width = current :=
    Nat.div_add_mod current width
  have hrw : current % width < width := Nat.mod_lt current hw
  have hq : current / width < h := by
    refine (Nat.div_lt_iff_lt_mul hw).mpr ?_
    have hcomm : h * width = width * h := Nat.mul_comm h width
    omega
  have hbound := idx_lt_len (w := width) (h := h) (q := current / width)
    (r := current % width + 1) (by omega) hq
  omega

theorem botright_idx_lt {current width L : Nat} (hw : 0 < width)
    (hmod : L % width = 0) (hcur : current < L) (hb : current < L - width)
    (hr : current % width ≠ width - 1) : current + width + 1 < L := by
  obtain ⟨h, hlen⟩ := Nat.dvd_of_mod_eq_zero hmod
  have hqr : width * (current / width) + current % width = current :=
    Nat.div_add_mod current width
  have hrw : current % width < width := Nat.mod_lt current hw
  have hmul : width * (current / width + 1) = width * (current / width) + width :=
    Nat.mul_succ width (current / width)
  have hqh : current / width + 1 < h := by
    by_contra hcon
    push_neg at hcon
    have hle := Nat.mul_le_mul_left width hcon
    omega
  have hbound := idx_lt_len (w := width) (h := h) (q := current / width + 1)
    (r := current % width + 1) (by omega) hqh
  omega

/-- C10: on a well-formed grid with the popped cell in range, every grid
index read during neighbor generation lies strictly inside the grid, every
produced neighbor lies strictly inside the grid (so `astar`'s own
`grid[neighbor]` read is also in bounds), and the guarded `u32`/`usize`
subtractions never underflow (`grid.len() - width`, `current - width`,
`top_index - 1` and `current - 1` all have a minuend at least as large as
the subtrahend under their guards). -/
theorem C10_no_oob {current width : Nat} {grid : List Nat} {card : Bool}
    (hw : 0 < width) (hmod : grid.length % width = 0) (hcur : current < grid.length) :
    (∀ i ∈ neighborReadIndices current grid.length width card, i < grid.length) ∧
      (∀ n ∈ get_neighbor_coords current grid width card, n < grid.length) ∧
      width ≤ grid.length ∧
      (current % width ≠ 0 → 1 ≤ current) ∧
      (width ≤ current → current % width ≠ 0 → width + 1 ≤ current) := by
  refine ⟨?_, fun n hn => gnc_lt_len hw hmod hcur hn, ?_, ?_, ?_⟩
  · intro i hi
    simp only [neighborReadIndices] at hi
    rcases List.mem_append.mp hi with hi | hi
    rcases List.mem_append.mp hi with hi | hi
    rcases List.mem_append.mp hi with hi | hi
    · obtain ⟨ht, hi⟩ := mem_ite_nil hi
      rcases List.mem_append.mp hi with hi | hi
      rcases List.mem_append.mp hi with hi | hi
      · rw [List.mem_singleton] at hi
        subst hi
        omega
      · obtain ⟨-, hi⟩ := mem_ite_nil hi
        rw [List.mem_singleton] at hi
        subst hi
        omega
      · obtain ⟨-, hi⟩ := mem_ite_nil hi
        rw [List.mem_singleton] at hi
        subst hi
        omega
    · obtain ⟨-, hi⟩ := mem_ite_nil hi
      rw [List.mem_singleton] at hi
      subst hi
      omega
    · obtain ⟨hr, hi⟩ := mem_ite_nil hi
      rw [List.mem_singleton] at hi
      subst hi
      exact right_idx_lt hw hmod hcur hr
    · obtain ⟨hb, hi⟩ := mem_ite_nil hi
      rcases List.mem_append.mp hi with hi | hi
      rcases List.mem_append.mp hi with hi | hi
      · rw [List.mem_singleton] at hi
        subst hi
        omega
      · obtain ⟨-, hi⟩ := mem_ite_nil hi
        rw [List.mem_singleton] at hi
        subst hi
        omega
      · obtain ⟨⟨-, hr⟩, hi⟩ := mem_ite_nil hi
        rw [List.mem_singleton] at hi
        subst hi
        exact botright_idx_lt hw hmod hcur hb hr
  · have hpos : 0 < grid.length := by omega
    exact Nat.le_of_dvd hpos (Nat.dvd_of_mod_eq_zero hmod)
  · intro hne
    by_cases hc0 : current = 0
    · rw [hc0, Nat.zero_mod] at hne
      exact absurd rfl hne
    · omega
  · intro hge hne
    by_cases hce : current = width
    · rw [hce, Nat.mod_self] at hne
      exact absurd rfl hne
    · omega

theorem C10_no_oob_witness :
    (2 : Nat) ≤ List.length [1, 1] :=
  (@C10_no_oob 0 2 [1, 1] false (by decide) (by decide) (by decide)).2.2.1

/-! ## Termination of the search loop -/

/-- Number of grid cells not yet discovered by `cost_so_far`. -/
def uMeasure (len : Nat) (cost : List (Nat × Nat)) : Nat :=
  ((Finset.range len).filter (fun c => alookup cost c = none)).card

/-- Total stored cost over the grid cells. -/
def sMeasure (len : Nat) (cost : List (Nat × Nat)) : Nat :=
  ∑ c ∈ Finset.range len, (alookup cost c).getD 0

/-- One relaxation either discovers a new cell (undiscovered count drops),
strictly lowers a stored cost (total stored cost drops), or leaves the state
unchanged. -/
theorem relax_measure (endP width current : Nat) (grid : List Nat)
    {n len : Nat} {st : AState}
    (hval : ∀ k v, alookup st.cost_so_far k = some v → 1 ≤ v)
    (hn : n < len) :
    uMeasure len (relaxNeighbor endP grid width current st n).cost_so_far
        < uMeasure len st.cost_so_far ∨
      (uMeasure len (relaxNeighbor endP grid width current st n).cost_so_far
          = uMeasure len st.cost_so_far ∧
        sMeasure len (relaxNeighbor endP grid width current st n).cost_so_far
          < sMeasure len st.cost_so_far) ∨
      relaxNeighbor endP grid width current st n = st := by
  rw [relax_eq]
  by_cases hC : (alookup st.cost_so_far n).getD 0 = 0 ∨
      tentativeCost st.cost_so_far grid width current n < (alookup st.cost_so_far n).getD 0
  swap
  · rw [if_neg hC]
    exact Or.inr (Or.inr rfl)
  rw [if_pos hC]
  have hcs : (relaxedState endP grid width current st n).cost_so_far
      = (n, tentativeCost st.cost_so_far grid width current n) :: st.cost_so_far := rfl
  cases hold : alookup st.cost_so_far n with
  | none =>
    refine Or.inl ?_
    have hset : (Finset.range len).filter
          (fun c => alookup (relaxedState endP grid width current st n).cost_so_far c = none)
        = ((Finset.range len).filter (fun c => alookup st.cost_so_far c = none)).erase n := by
      ext c
      simp only [Finset.mem_filter, Finset.mem_erase, Finset.mem_range, hcs, alookup_cons]
      constructor
      · rintro ⟨hcl, hlk⟩
        by_cases hcn : c = n
        · rw [if_pos hcn] at hlk
          cases hlk
        · rw [if_neg hcn] at hlk
          exact ⟨hcn, hcl, hlk⟩
      · rintro ⟨hcn, hcl, hlk⟩
        rw [if_neg hcn]
        exact ⟨hcl, hlk⟩
    have hmemf : n ∈ (Finset.range len).filter (fun c => alookup st.cost_so_far c = none) := by
      simp only [Finset.mem_filter, Finset.mem_range]
      exact ⟨hn, hold⟩
    have hpos : 0 < ((Finset.range len).filter
        (fun c => alookup st.cost_so_far c = none)).card :=
      Finset.card_pos.mpr ⟨n, hmemf⟩
    rw [uMeasure, uMeasure, hset, Finset.card_erase_of_mem hmemf]
    omega
  | some v =>
    have hv1 : 1 ≤ v := hval n v hold
    have htcv : tentativeCost st.cost_so_far grid width current n < v := by
      rw [hold] at hC
      simp only [Option.getD_some] at hC
      omega
    refine Or.inr (Or.inl ⟨?_, ?_⟩)
    · rw [uMeasure, uMeasure]
      congr 1
      ext c
      simp only [Finset.mem_filter, Finset.mem_range, hcs, alookup_cons]
      by_cases hcn : c = n
      · rw [if_pos hcn, hcn, hold]
        simp
      · rw [if_neg hcn]
    · have hmemr : n ∈ Finset.range len := Finset.mem_range.mpr hn
      have hsplit1 := Finset.add_sum_erase (Finset.range len)
        (fun c => (alookup (relaxedState endP grid width current st n).cost_so_far c).getD 0)
        hmemr
      have hsplit2 := Finset.add_sum_erase (Finset.range len)
        (fun c => (alookup st.cost_so_far c).getD 0) hmemr
      have hrest : ∑ c ∈ (Finset.range len).erase n,
            (alookup (relaxedState endP grid width current st n).cost_so_far c).getD 0
          = ∑ c ∈ (Finset.range len).erase n, (alookup st.cost_so_far c).getD 0 := by
        refine Finset.sum_congr rfl ?_
        intro c hc
        have hcn : c ≠ n := (Finset.mem_erase.mp hc).1
        rw [hcs, alookup_cons, if_neg hcn]
      have hnew : (alookup (relaxedState endP grid width current st n).cost_so_far n).getD 0
          = tentativeCost st.cost_so_far grid width current n := by
        rw [hcs, alookup_cons_self]
        rfl
      have holdv : (alookup st.cost_so_far n).getD 0 = v := by
        rw [hold]
        rfl
      rw [sMeasure, sMeasure, ← hsplit1, ← hsplit2, hrest]
      dsimp only
      omega

/-- Expanding a whole neighbor list either discovers a cell, strictly lowers
the total stored cost while discovering none, or changes nothing. -/
theorem fold_relax_measure (endP width len : Nat) {grid : List Nat}
    {start current : Nat} {ns : List Nat} {st : AState}
    (hinv : SearchInv grid start st)
    (hcost : (alookup st.cost_so_far current).isSome)
    (hpred : current = start ∨ (alookup st.came_from current).isSome)
    (hns : ∀ n ∈ ns, 0 < grid.getD n 0 ∧ n < len) :
    uMeasure len (ns.foldl (relaxNeighbor endP grid width current) st).cost_so_far
        < uMeasure len st.cost_so_far ∨
      (uMeasure len (ns.foldl (relaxNeighbor endP grid width current) st).cost_so_far
          = uMeasure len st.cost_so_far ∧
        sMeasure len (ns.foldl (relaxNeighbor endP grid width current) st).cost_so_far
          < sMeasure len st.cost_so_far) ∨
      ns.foldl (relaxNeighbor endP grid width current) st = st := by
  induction ns generalizing st with
  | nil => exact Or.inr (Or.inr rfl)
  | cons n t ih =>
    simp only [List.foldl_cons]
    obtain ⟨hinv2, hc2, hm2⟩ := relax_step endP width hinv hcost hpred
      (hns n (List.mem_cons_self n t)).1
    have hstep := relax_measure endP width current grid
      hinv.val_pos (hns n (List.mem_cons_self n t)).2
    have hrest := ih hinv2 (by rw [hc2]; exact hcost) (hpred.imp id (hm2 current))
      (fun n2 hn2 => hns n2 (List.mem_cons_of_mem n hn2))
    rcases hstep with h1 | ⟨h1e, h1s⟩ | h1eq
    · rcases hrest with h2 | ⟨h2e, h2s⟩ | h2eq
      · exact Or.inl (by omega)
      · exact Or.inl (by omega)
      · refine Or.inl ?_
        rw [h2eq]
        exact h1
    · rcases hrest with h2 | ⟨h2e, h2s⟩ | h2eq
      · exact Or.inl (by omega)
      · exact Or.inr (Or.inl ⟨by omega, by omega⟩)
      · refine Or.inr (Or.inl ?_)
        rw [h2eq]
        exact ⟨h1e, h1s⟩
    · rw [h1eq] at hrest ⊢
      exact hrest

/-- Relaxation only pushes frontier entries at neighbor cells, so in-range
frontiers stay in range. -/
theorem fold_frontier_bound {grid : List Nat} {endP width current len : Nat}
    {ns : List Nat} {st : AState}
    (hfb : ∀ it ∈ st.frontier, it.position < len)
    (hns : ∀ n ∈ ns, n < len) :
    ∀ it ∈ (ns.foldl (relaxNeighbor endP grid width current) st).frontier,
      it.position < len := by
  induction ns generalizing st with
  | nil => exact hfb
  | cons n t ih =>
    simp only [List.foldl_cons]
    refine ih ?_ (fun n2 hn2 => hns n2 (List.mem_cons_of_mem n hn2))
    intro it hit
    rw [relax_eq] at hit
    by_cases hC : (alookup st.cost_so_far n).getD 0 = 0 ∨
        tentativeCost st.cost_so_far grid width current n < (alookup st.cost_so_far n).getD 0
    · rw [if_pos hC] at hit
      have hfr : (relaxedState endP grid width current st n).frontier
          = FrontierItem.mk n (pushPriority endP width n
              (tentativeCost st.cost_so_far grid width current n)) :: st.frontier := rfl
      rw [hfr] at hit
      rcases List.mem_cons.mp hit with hit | hit
      · rw [hit]
        exact hns n (List.mem_cons_self n t)
      · exact hfb it hit
    · rw [if_neg hC] at hit
      exact hfb it hit

/-- The inductive engine for termination: on states satisfying the invariant
with an in-range frontier, some fuel completes the loop.  The induction is a
lexicographic descent on (undiscovered cells, total stored cost, frontier
length). -/
theorem term_main {start goal width : Nat} {grid : List Nat} {card : Bool}
    (hw : 0 < width) (hmod : grid.length % width = 0) :
    ∀ (u s f : Nat) (st : AState), SearchInv grid start st →
      (∀ it ∈ st.frontier, it.position < grid.length) →
      uMeasure grid.length st.cost_so_far = u →
      sMeasure grid.length st.cost_so_far = s →
      st.frontier.length = f →
      ∃ fuel, (astarLoop fuel goal grid width card st).isSome := by
  intro u
  induction u using Nat.strong_induction_on with
  | _ u ihu =>
  intro s
  induction s using Nat.strong_induction_on with
  | _ s ihs =>
  intro f
  induction f using Nat.strong_induction_on with
  | _ f ihf =>
  intro st hinv hfb hu hsm hf
  cases hpop : heapPop st.frontier with
  | none =>
    refine ⟨1, ?_⟩
    rw [astarLoop, hpop]
    rfl
  | some pr =>
    obtain ⟨item, rest⟩ := pr
    by_cases hend : item.position = goal
    · refine ⟨1, ?_⟩
      rw [astarLoop, hpop]
      dsimp only
      rw [if_pos hend]
      rfl
    · obtain ⟨hmem, -, hrest, hlen⟩ := heapPop_some hpop
      have hsub : ∀ x ∈ rest, x ∈ st.frontier := by
        intro x hx
        rw [hrest] at hx
        exact eraseItem_subset hx
      have hcurlt : item.position < grid.length := hfb item hmem
      have hns : ∀ n ∈ get_neighbor_coords item.position grid width card,
          0 < grid.getD n 0 ∧ n < grid.length :=
        fun n hn => ⟨gnc_pos hn, gnc_lt_len hw hmod hcurlt hn⟩
      have hinv2 := expand_inv goal width card hinv hpop
      have hfb2 : ∀ it ∈ (expandNeighbors goal grid width card item.position
          { st with frontier := rest }).frontier, it.position < grid.length :=
        fold_frontier_bound (fun it hit => hfb it (hsub it hit))
          (fun n hn => (hns n hn).2)
      have hstep := fold_relax_measure goal width grid.length
        (pop_state_inv hinv hsub) (hinv.frontier_cost item hmem)
        (hinv.frontier_pred item hmem) hns
      have hexp : ∃ fuel, (astarLoop fuel goal grid width card
          (expandNeighbors goal grid width card item.position
            { st with frontier := rest })).isSome := by
        rcases hstep with h1 | ⟨h1e, h1s⟩ | h1eq
        · exact ihu _ (by rw [← hu]; exact h1) _ _ _ hinv2 hfb2 rfl rfl rfl
        · exact ihs _ (by rw [← hsm]; exact h1s) _ _ hinv2 hfb2 (h1e.trans hu) rfl rfl
        · simp only [expandNeighbors]
          rw [h1eq]
          exact ihf rest.length (by omega) _ (pop_state_inv hinv hsub)
            (fun it hit => hfb it (hsub it hit)) hu hsm rfl
      obtain ⟨fuel, hfuel⟩ := hexp
      refine ⟨fuel + 1, ?_⟩
      rw [astarLoop, hpop]
      dsimp only
      rw [if_neg hend]
      exact hfuel

/-- C9: on a well-formed grid with in-range endpoints, the search loop
terminates: some finite fuel completes it (each cell is pushed only on first
discovery or a strict cost improvement, and positive integer costs bound the
improvements), ending when the frontier is empty or the goal is popped. -/
theorem C9_terminates {start goal width : Nat} {grid : List Nat} {card : Bool}
    (hw : 0 < width) (hmod : grid.length % width = 0)
    (hs : start < grid.length) (hg : goal < grid.length) :
    ∃ fuel, (astarLoop fuel goal grid width card (initState start)).isSome := by
  refine term_main hw hmod (uMeasure grid.length (initState start).cost_so_far)
    (sMeasure grid.length (initState start).cost_so_far) 1 (initState start)
    (inv_init grid start) ?_ rfl rfl rfl
  intro it hit
  simp only [initState, List.mem_singleton] at hit
  rw [hit]
  exact hs

theorem C9_terminates_witness :
    (0 : Nat) < 2 ∧ List.length [1, 1] % 2 = 0 ∧ 0 < List.length [1, 1] ∧
      1 < List.length [1, 1] ∧
      ∃ fuel, (astarLoop fuel 1 [1, 1] 2 false (initState 0)).isSome :=
  ⟨by decide, by decide, by decide, by decide,
    @C9_terminates 0 1 2 [1, 1] false (by decide) (by decide) (by decide) (by decide)⟩
